import Mathlib

/-!
Verification of the pipeline driver in `main.py` (RandomForest genre
classifier orchestrator).

The driver is embedded shallowly:

* configuration values are opaque strings; the `random_forest_pipeline`
  section is a tree of scalars / string arrays / mappings (`Value`);
* the external Run Executor and the filesystem are modelled by a `World`
  of oracles deciding success of each run invocation / file write;
* `go` produces the ordered trace of observable effects (environment
  variable writes, file writes, run invocations) together with the
  propagated failure, mirroring the Python control flow statement by
  statement.
-/

set_option maxHeartbeats 1000000

/-! ## Generic character-list utilities -/

/-- Characters of an indentation of `n` spaces. -/
def indentC (n : Nat) : List Char := List.replicate n ' '

/-- Split a character list at every occurrence of `c` (model of Python's
`str.split` with a one-character separator: always returns at least one
chunk, keeps empty chunks). -/
def splitCh (c : Char) : List Char → List (List Char)
  | [] => [[]]
  | x :: xs =>
    if x = c then [] :: splitCh c xs
    else
      match splitCh c xs with
      | [] => [[x]]
      | y :: ys => (x :: y) :: ys

/-- Interleave the separator `c` between the chunks. -/
def intercalateC (c : Char) : List (List Char) → List Char
  | [] => []
  | [l] => l
  | l :: ls => l ++ c :: intercalateC c ls

/-- Map a fallible function over a list, failing if any element fails. -/
def mapOpt (f : α → Option β) : List α → Option (List β)
  | [] => some []
  | a :: as =>
    match f a, mapOpt f as with
    | some b, some bs => some (b :: bs)
    | _, _ => none

/-! ## Configuration values (the `random_forest_pipeline` sub-tree) -/

mutual
/-- A configuration value: scalar, sequence of scalars, or mapping. -/
inductive Value where
  | scalar (s : String) : Value
  | arr (xs : List String) : Value
  | map (fs : Fields) : Value

/-- The ordered fields of a mapping value. -/
inductive Fields where
  | nil : Fields
  | cons (k : String) (v : Value) (rest : Fields) : Fields
end

/-- Look a key up in the fields of a mapping (first match wins). -/
def Fields.lookupKey : Fields → String → Option Value
  | .nil, _ => none
  | .cons k v rest, key => if k = key then some v else rest.lookupKey key

/-- Model of Python `config[section][key]` on the embedded tree: indexing a
non-mapping, or a missing key, yields `none` (a raised `KeyError`). -/
def Value.getField : Value → String → Option Value
  | .map fs, key => fs.lookupKey key
  | _, _ => none

/-- Model of Python `str()` on a configuration node, as used when a node is
interpolated into a run parameter.  The driver only meaningfully applies
this to scalar nodes; non-scalar nodes get a bracketed rendering. -/
def Value.render : Value → String
  | .scalar s => s
  | .arr xs => "[" ++ String.intercalate ", " xs ++ "]"
  | .map _ => "\x7bmapping\x7d"

/-- No newline occurs among the characters. -/
def chOK (l : List Char) : Bool := l.all (fun c => c ≠ '\n')

/-- A mapping key serializable on one line: nonempty, starts with neither a
space nor a dash, and contains neither a colon nor a newline. -/
def keyOK (k : List Char) : Bool :=
  match k with
  | [] => false
  | c :: _ => c ≠ ' ' && c ≠ '-' && k.all (fun d => d ≠ ':' && d ≠ '\n')

mutual
/-- Well-formedness of a value for serialization: scalars and array
elements contain no newline, keys are serializable, and nested containers
are nonempty. -/
def wfVal : Value → Bool
  | .scalar s => chOK s.data
  | .arr xs => !xs.isEmpty && xs.all (fun x => chOK x.data)
  | .map .nil => false
  | .map (.cons k v rest) => wfFields (.cons k v rest)

/-- Well-formedness of every field of a mapping. -/
def wfFields : Fields → Bool
  | .nil => true
  | .cons k v rest => keyOK k.data && wfVal v && wfFields rest
end

/-- Well-formedness of a configuration section: a nonempty well-formed
mapping (per the data model, `random_forest_pipeline` is a mapping
section). -/
def wfSection : Value → Bool
  | .map (.cons k v rest) => wfVal (.map (.cons k v rest))
  | _ => false

/-! ## Serialization (model of `OmegaConf.to_yaml`) -/

mutual
/-- Serialized lines of one mapping field `k: v` at indentation `n`.

Modelled from the spec: the structured-document serialization
(`OmegaConf.to_yaml`) used for the temporary training configuration is
implemented by the external configuration library, not by code under
`src/`; this is the usual block-style YAML layout the spec refers to. -/
def emitVal (n : Nat) (k : List Char) : Value → List (List Char)
  | .scalar s => [indentC n ++ k ++ ':' :: ' ' :: s.data]
  | .arr xs =>
      (indentC n ++ k ++ [':']) ::
        xs.map (fun x => (indentC (n + 2) ++ ['-', ' ']) ++ x.data)
  | .map fs => (indentC n ++ k ++ [':']) :: emitFields (n + 2) fs

/-- Serialized lines of all fields of a mapping at indentation `n`. -/
def emitFields (n : Nat) : Fields → List (List Char)
  | .nil => []
  | .cons k v rest => emitVal n k.data v ++ emitFields n rest
end

/-- Serialized lines of a top-level value. -/
def toYamlLines : Value → List (List Char)
  | .scalar s => [s.data]
  | .arr xs => xs.map (fun x => ['-', ' '] ++ x.data)
  | .map fs => emitFields 0 fs

/-- Full serialized document: lines joined by newlines. -/
def toYamlStr (v : Value) : String :=
  String.mk (intercalateC '\n' (toYamlLines v))

/-! ## Parsing the serialization format back -/

/-- Length of the run of leading spaces of a line. -/
def leadingSpaces (l : List Char) : Nat :=
  (l.takeWhile (fun c => c = ' ')).length

/-- Strip exactly `n` spaces of indentation; fails when the line does not
start with exactly `n` spaces. -/
def dropIndent (n : Nat) (l : List Char) : Option (List Char) :=
  if l.take n = indentC n then
    match l.drop n with
    | ' ' :: _ => none
    | r => some r
  else none

/-- Split a line body at its first colon. -/
def splitAtColon : List Char → Option (List Char × List Char)
  | [] => none
  | c :: cs =>
    if c = ':' then some ([], cs)
    else
      match splitAtColon cs with
      | some (k, a) => some (c :: k, a)
      | none => none

/-- Recognize a sequence-element line `"- elem"` at indentation `k` and
return the element characters. -/
def arrItem (k : Nat) (m : List Char) : Option (List Char) :=
  if m.take (k + 2) = indentC k ++ ['-', ' '] then some (m.drop (k + 2)) else none

/-- Parse the fields of a mapping block whose lines sit at indentation `n`.
Scalar fields are one line `k: v`; container fields are a line `k:`
followed by their more-indented block, a run of `- elem` lines for a
sequence and a nested mapping block otherwise. -/
def parseFields (n : Nat) (lines : List (List Char)) : Option Fields :=
  match lines with
  | [] => some .nil
  | l :: rest =>
    match dropIndent n l with
    | none => none
    | some body =>
      match splitAtColon body with
      | none => none
      | some (k, after) =>
        match after with
        | ' ' :: v =>
          match parseFields n rest with
          | some fs => some (.cons (String.mk k) (.scalar (String.mk v)) fs)
          | none => none
        | [] =>
          match (rest.takeWhile (fun m => n < leadingSpaces m)).head? with
          | none => none
          | some m0 =>
            match arrItem (n + 2) m0 with
            | some _ =>
              match mapOpt (arrItem (n + 2)) (rest.takeWhile (fun m => n < leadingSpaces m)) with
              | some xs =>
                match parseFields n (rest.dropWhile (fun m => n < leadingSpaces m)) with
                | some fs => some (.cons (String.mk k) (.arr (xs.map String.mk)) fs)
                | none => none
              | none => none
            | none =>
              match parseFields (n + 2) (rest.takeWhile (fun m => n < leadingSpaces m)) with
              | some gs =>
                match parseFields n (rest.dropWhile (fun m => n < leadingSpaces m)) with
                | some fs => some (.cons (String.mk k) (.map gs) fs)
                | none => none
              | none => none
        | _ => none
termination_by lines.length
decreasing_by
  all_goals
    simp only [List.length_cons]
    first
      | exact Nat.lt_succ_of_le (Nat.le_refl _)
      | exact Nat.lt_succ_of_le ((List.takeWhile_sublist _).length_le)
      | exact Nat.lt_succ_of_le ((List.dropWhile_sublist _).length_le)

/-- Parse a whole serialized document back into a mapping value. -/
def parseYaml (s : String) : Option Value :=
  match parseFields 0 (splitCh '\n' s.data) with
  | some fs => some (Value.map fs)
  | none => none

/-! ## Configuration (the resolved Hydra configuration object) -/

/-- The `main.execute_steps` configuration value: either a single
comma-separated string (command-line override) or a sequence of names. -/
inductive ExecuteSteps where
  | str (s : String) : ExecuteSteps
  | seq (l : List String) : ExecuteSteps

/-- The `main` configuration section. -/
structure MainConfig where
  project_name : String
  experiment_name : String
  random_seed : String
  execute_steps : ExecuteSteps

/-- The `data` configuration section. -/
structure DataConfig where
  file_url : String
  reference_dataset : String
  ks_alpha : String
  test_size : String
  stratify : String

/-- The resolved pipeline configuration. Scalar leaves are kept as their
string renderings: the driver only ever passes them through. -/
structure Config where
  main : MainConfig
  data : DataConfig
  random_forest_pipeline : Value

/-- Model of Python `s.split(",")` (main.py line 27). -/
def splitComma (s : String) : List String :=
  (splitCh ',' s.data).map String.mk

/-- Join names with commas (used to state string-vs-sequence equivalence). -/
def joinComma (names : List String) : String :=
  String.mk (intercalateC ',' (names.map String.data))

/-- Resolution of the execution selection (main.py lines 25-29): a string
is split on commas, a sequence is used verbatim. -/
def resolveSteps : ExecuteSteps → List String
  | .str s => splitComma s
  | .seq l => l

/-- The ordered selection of stage names for this invocation. -/
def stepsToExecute (c : Config) : List String :=
  resolveSteps c.main.execute_steps

/-- The six stage names in the fixed canonical order of main.py. -/
def canonicalStages : List String :=
  ["download", "preprocess", "check_data", "segregate", "random_forest", "evaluate"]

/-- Modelled from the spec: the default `main.execute_steps` value comes
from the repository's `config.yaml`, which is not under `src/`; per the
spec, an absent execution-steps value defaults to all six stage names in
canonical order. -/
def defaultExecuteSteps : ExecuteSteps := .seq canonicalStages

/-! ## The driver as a trace-producing function -/

/-- One observable effect of the driver. -/
inductive Event where
  | setEnv (key value : String) : Event
  | fileWrite (path content : String) : Event
  | run (path entry : String) (params : List (String × String)) : Event

/-- A failure propagated to the driver's caller. -/
inductive Err where
  | runFailed (path : String) : Err
  | writeFailed (path : String) : Err
  | keyError (key : String) : Err

/-- The external collaborators: the Run Executor's verdict on each run
invocation and the filesystem's verdict on each file write. -/
structure World where
  runOk : String → String → List (String × String) → Bool
  writeOk : String → String → Bool

/-- Model of `os.path.join(root, name)` / `os.path.abspath` for a relative
name resolved against a directory. -/
def stagePath (root name : String) : String := root ++ "/" ++ name

/-- A blocking `mlflow.run(path, entry, parameters)` call: the invocation
is recorded on the trace and a failure verdict becomes a raised error. -/
def invoke (w : World) (path entry : String) (ps : List (String × String))
    (tr : List Event) : List Event × Option Err :=
  (tr ++ [Event.run path entry ps],
   if w.runOk path entry ps then none else some (Err.runFailed path))

/-- Sequencing of the driver's statements: a raised error skips everything
after it and propagates. -/
def seqStep : List Event × Option Err → (List Event → List Event × Option Err) →
    List Event × Option Err
  | (tr, some e), _ => (tr, some e)
  | (tr, none), f => f tr

/-- The two environment-variable writes at the top of `go`
(main.py lines 14-17). -/
def envEvents (c : Config) : List Event :=
  [Event.setEnv "WANDB_PROJECT" c.main.project_name,
   Event.setEnv "WANDB_RUN_GROUP" c.main.experiment_name]

/-- Parameters of the `download` run (main.py lines 36-43). -/
def downloadParams (c : Config) : List (String × String) :=
  [("file_url", c.data.file_url),
   ("artifact_name", "raw_data.parquet"),
   ("artifact_type", "raw_data"),
   ("artifact_description", "Data as downloaded")]

/-- Parameters of the `preprocess` run (main.py lines 51-61). -/
def preprocessParams : List (String × String) :=
  [("input_artifact", "raw_data.parquet:latest"),
   ("artifact_name", "preprocessed_data.csv"),
   ("artifact_type", "preprocessed_data"),
   ("artifact_description", "Data with preprocessing applied")]

/-- Parameters of the `check_data` run (main.py lines 70-81). -/
def check_dataParams (c : Config) : List (String × String) :=
  [("sample_artifact", "preprocessed_data.csv:latest"),
   ("reference_artifact", c.data.reference_dataset),
   ("ks_alpha", c.data.ks_alpha)]

/-- Parameters of the `segregate` run (main.py lines 91-102). -/
def segregateParams (c : Config) : List (String × String) :=
  [("input_artifact", "preprocessed_data.csv:latest"),
   ("test_size", c.data.test_size),
   ("stratify", c.data.stratify),
   ("artifact_root", "data"),
   ("artifact_type", "segregated_data")]

/-- Parameters of the `random_forest` run (main.py lines 120-130);
`exportVal` is the looked-up `random_forest_pipeline.export_artifact`. -/
def random_forestParams (c : Config) (modelConfig exportVal : String) :
    List (String × String) :=
  [("train_data", "data_train.csv:latest"),
   ("model_config", modelConfig),
   ("random_seed", c.main.random_seed),
   ("val_size", c.data.test_size),
   ("stratify", c.data.stratify),
   ("export_artifact", exportVal)]

/-- Parameters of the `evaluate` run (main.py lines 139-145). -/
def evaluateParams (exportVal : String) : List (String × String) :=
  [("model_export", exportVal ++ ":latest"),
   ("test_data", "data_test.csv:latest")]

/-- Serialized content written to the temporary training configuration
file (main.py line 114). -/
def yamlContent (c : Config) : String := toYamlStr c.random_forest_pipeline

/-- First step - download (main.py lines 32-44). -/
def downloadStep (w : World) (root : String) (c : Config) (steps : List String)
    (tr : List Event) : List Event × Option Err :=
  if "download" ∈ steps then
    invoke w (stagePath root "download") "main" (downloadParams c) tr
  else (tr, none)

/-- Second step - preprocess (main.py lines 47-62). -/
def preprocessStep (w : World) (root : String) (_c : Config) (steps : List String)
    (tr : List Event) : List Event × Option Err :=
  if "preprocess" ∈ steps then
    invoke w (stagePath root "preprocess") "main" preprocessParams tr
  else (tr, none)

/-- Third step - check_data (main.py lines 66-82). -/
def check_dataStep (w : World) (root : String) (c : Config) (steps : List String)
    (tr : List Event) : List Event × Option Err :=
  if "check_data" ∈ steps then
    invoke w (stagePath root "check_data") "main" (check_dataParams c) tr
  else (tr, none)

/-- Fourth step - segregate (main.py lines 87-103). -/
def segregateStep (w : World) (root : String) (c : Config) (steps : List String)
    (tr : List Event) : List Event × Option Err :=
  if "segregate" ∈ steps then
    invoke w (stagePath root "segregate") "main" (segregateParams c) tr
  else (tr, none)

/-- Fifth step - random_forest (main.py lines 109-131): the
`random_forest_pipeline` section is serialized to a temporary file whose
absolute path is passed as `model_config`; only after a successful write is
the run invoked.  A failing write, or a missing `export_artifact` key while
the parameter mapping is being built, raises before the run. -/
def random_forestStep (w : World) (cwd root : String) (c : Config)
    (steps : List String) (tr : List Event) : List Event × Option Err :=
  if "random_forest" ∈ steps then
    let modelConfig := stagePath cwd "random_forest_config.yml"
    let content := yamlContent c
    let tr2 := tr ++ [Event.fileWrite modelConfig content]
    if w.writeOk modelConfig content then
      match Value.getField c.random_forest_pipeline "export_artifact" with
      | some ev =>
        invoke w (stagePath root "random_forest") "main"
          (random_forestParams c modelConfig ev.render) tr2
      | none => (tr2, some (Err.keyError "export_artifact"))
    else (tr2, some (Err.writeFailed modelConfig))
  else (tr, none)

/-- Last step - evaluate (main.py lines 135-146): the parameter mapping
interpolates `random_forest_pipeline.export_artifact`, so a missing key
raises before the run. -/
def evaluateStep (w : World) (root : String) (c : Config) (steps : List String)
    (tr : List Event) : List Event × Option Err :=
  if "evaluate" ∈ steps then
    match Value.getField c.random_forest_pipeline "export_artifact" with
    | some ev =>
      invoke w (stagePath root "evaluate") "main" (evaluateParams ev.render) tr
    | none => (tr, some (Err.keyError "export_artifact"))
  else (tr, none)

/-- The first four stage statements of `go`, chained fail-fast. -/
def firstFour (w : World) (root : String) (c : Config) (steps : List String)
    (tr : List Event) : List Event × Option Err :=
  seqStep (seqStep (seqStep (downloadStep w root c steps tr)
    (preprocessStep w root c steps))
    (check_dataStep w root c steps))
    (segregateStep w root c steps)

/-- The body of the driver after the execution selection has been
resolved: attempt each of the six stages in canonical order, each gated by
membership in the selection, with any raised error aborting the rest. -/
def goWith (w : World) (cwd root : String) (c : Config) (steps : List String) :
    List Event × Option Err :=
  seqStep (seqStep (firstFour w root c steps (envEvents c))
    (random_forestStep w cwd root c steps))
    (evaluateStep w root c steps)

/-- The driver `go` (main.py lines 8-146): set the two tracking environment
variables, resolve the execution selection, then attempt each of the six
stages in canonical order, each gated by membership in the selection, with
any raised error aborting the rest and propagating to the caller. -/
def go (w : World) (cwd root : String) (c : Config) : List Event × Option Err :=
  goWith w cwd root c (stepsToExecute c)

/-- The run invocations of a trace, by project path, in order. -/
def runPaths (tr : List Event) : List String :=
  tr.filterMap (fun e => match e with | .run p _ _ => some p | _ => none)

/-- Modelled from the spec: the per-stage parameter table of section 6
(stage name ↦ parameter mapping).  The artifact-description entries that
the outputs column of the table mentions only by kind are left out here
and quantified existentially in the claim about it; `val_size`, whose
source the table does not pin down, is the split fraction of the `data`
section (cf. the segregate row). -/
def specTableParams (stage : String) (c : Config) (modelConfig exportVal : String) :
    List (String × String) :=
  if stage = "download" then
    [("file_url", c.data.file_url),
     ("artifact_name", "raw_data.parquet"),
     ("artifact_type", "raw_data")]
  else if stage = "preprocess" then
    [("input_artifact", "raw_data.parquet:latest"),
     ("artifact_name", "preprocessed_data.csv"),
     ("artifact_type", "preprocessed_data")]
  else if stage = "check_data" then
    [("sample_artifact", "preprocessed_data.csv:latest"),
     ("reference_artifact", c.data.reference_dataset),
     ("ks_alpha", c.data.ks_alpha)]
  else if stage = "segregate" then
    [("input_artifact", "preprocessed_data.csv:latest"),
     ("test_size", c.data.test_size),
     ("stratify", c.data.stratify),
     ("artifact_root", "data"),
     ("artifact_type", "segregated_data")]
  else if stage = "random_forest" then
    [("train_data", "data_train.csv:latest"),
     ("model_config", modelConfig),
     ("random_seed", c.main.random_seed),
     ("val_size", c.data.test_size),
     ("stratify", c.data.stratify),
     ("export_artifact", exportVal)]
  else if stage = "evaluate" then
    [("model_export", exportVal ++ ":latest"),
     ("test_data", "data_test.csv:latest")]
  else []

/-- A driver statement only appends to the incoming trace, and neither its
new events nor its error verdict depend on that trace. -/
def Appends (f : List Event → List Event × Option Err) : Prop :=
  ∀ tr, f tr = (tr ++ (f []).1, (f []).2)

/-- Every event a driver statement adds to the trace satisfies `P`. -/
def EventsOk (P : Event → Prop) (f : List Event → List Event × Option Err) : Prop :=
  ∀ tr, ∀ e ∈ (f tr).1, e ∈ tr ∨ P e

/-- Predicate: the event is a run invocation of the component folder `name` under `root`. -/
def isRunOf (root name : String) (e : Event) : Prop :=
  ∃ ps, e = Event.run (stagePath root name) "main" ps


/-- Predicate: the event is not an environment-variable write. -/
def notSetEnv (e : Event) : Prop := ∀ k v, e ≠ Event.setEnv k v


/-! ## Sample inputs for concrete instantiations -/

/-- A world whose executor and filesystem always succeed. -/
def wAllOk : World := ⟨fun _ _ _ => true, fun _ _ => true⟩

/-- A world whose executor fails every run. -/
def wFail : World := ⟨fun _ _ _ => false, fun _ _ => true⟩

/-- A world whose filesystem refuses every write. -/
def wNoWrite : World := ⟨fun _ _ _ => true, fun _ _ => false⟩

/-- A sample `data` section. -/
def sampleData : DataConfig := ⟨"http://x/y.csv", "ref.csv:latest", "0.05", "0.3", "genre"⟩

/-- A sample `random_forest_pipeline` section. -/
def sampleRF : Value :=
  .map (.cons "export_artifact" (.scalar "model_export")
    (.cons "random_forest" (.map (.cons "n_estimators" (.scalar "100")
      (.cons "max_depth" (.scalar "13") .nil)))
    (.cons "features" (.arr ["danceability", "energy"]) .nil)))

/-- A sample configuration with a given execution selection. -/
def sampleConfig (es : ExecuteSteps) : Config := ⟨⟨"proj", "exp", "42", es⟩, sampleData, sampleRF⟩


/-! ## Small string helpers -/

theorem splitCh_ne_nil (c : Char) (l : List Char) : splitCh c l ≠ [] := by
  induction l with
  | nil => simp [splitCh]
  | cons x xs ih =>
    simp only [splitCh]
    split
    · simp
    · split
      · simp
      · simp

theorem splitCh_not_mem (c : Char) (l r : List Char) (h : c ∉ l) :
    splitCh c (l ++ r) = List.modifyHead (l ++ ·) (splitCh c r) := by
  induction l with
  | nil =>
    cases h2 : splitCh c r with
    | nil => exact absurd h2 (splitCh_ne_nil c r)
    | cons y ys => simp [h2]
  | cons x xs ih =>
    have hx : x ≠ c := fun hc => h (hc ▸ List.mem_cons_self x xs)
    have hxs : c ∉ xs := fun hc => h (List.mem_cons_of_mem x hc)
    simp only [List.cons_append, splitCh, if_neg hx, List.append_eq]
    rw [ih hxs]
    cases h2 : splitCh c r with
    | nil => exact absurd h2 (splitCh_ne_nil c r)
    | cons y ys => simp

theorem splitCh_intercalateC (c : Char) (ls : List (List Char))
    (hne : ls ≠ []) (hc : ∀ l ∈ ls, c ∉ l) :
    splitCh c (intercalateC c ls) = ls := by
  induction ls with
  | nil => exact absurd rfl hne
  | cons l ls ih =>
    cases ls with
    | nil =>
      have hl : c ∉ l := hc l (List.mem_cons_self l [])
      have := splitCh_not_mem c l [] hl
      simpa [intercalateC, splitCh] using this
    | cons l2 ls2 =>
      have hl : c ∉ l := hc l (List.mem_cons_self l _)
      have hrest : ∀ m ∈ l2 :: ls2, c ∉ m := fun m hm =>
        hc m (List.mem_cons_of_mem l hm)
      have ihr := ih (by simp) hrest
      have : intercalateC c (l :: l2 :: ls2) = l ++ c :: intercalateC c (l2 :: ls2) := rfl
      rw [this, splitCh_not_mem c l _ hl]
      simp only [splitCh, if_pos rfl, ihr]
      simp



theorem mk_data (s : String) : String.mk s.data = s := rfl

theorem strAppend_cancel_left (s a b : String) (h : s ++ a = s ++ b) : a = b := by
  have h2 := congrArg String.data h
  rw [String.data_append, String.data_append] at h2
  exact String.ext (List.append_cancel_left h2)

theorem stagePath_eq_iff (r a b : String) : stagePath r a = stagePath r b ↔ a = b :=
  ⟨fun h => strAppend_cancel_left (r ++ "/") a b h, fun h => h ▸ rfl⟩

/-! ## Claim C2: parameter mappings match the table of spec section 6 -/

/-- C2: for every configuration and each of the six stages, the parameter
mapping the driver passes to the Run Executor matches the table of spec
section 6 exactly: `download` and `preprocess` carry the three tabulated
entries plus an artifact description, and `check_data`, `segregate`,
`random_forest` and `evaluate` carry exactly the tabulated entries and no
others. -/
theorem C2_stage_params_match_spec_table (c : Config) (mc ev : String) :
    (∃ d, downloadParams c =
      specTableParams "download" c mc ev ++ [("artifact_description", d)]) ∧
    (∃ d, preprocessParams =
      specTableParams "preprocess" c mc ev ++ [("artifact_description", d)]) ∧
    check_dataParams c = specTableParams "check_data" c mc ev ∧
    segregateParams c = specTableParams "segregate" c mc ev ∧
    random_forestParams c mc ev = specTableParams "random_forest" c mc ev ∧
    evaluateParams ev = specTableParams "evaluate" c mc ev := by
  refine ⟨⟨"Data as downloaded", ?_⟩, ⟨"Data with preprocessing applied", ?_⟩,
    ?_, ?_, ?_, ?_⟩ <;> rfl

/-! ## Claim C10: val_size coincides with test_size -/

/-- C10: the `val_size` parameter passed to the `random_forest` run and the
`test_size` parameter passed to the `segregate` run are both exactly the
configuration's `data.test_size` value. -/
theorem C10_val_size_equals_test_size (c : Config) (mc ev : String) :
    List.lookup "val_size" (random_forestParams c mc ev) = some c.data.test_size ∧
    List.lookup "test_size" (segregateParams c) = some c.data.test_size := by
  exact ⟨rfl, rfl⟩

/-! ## Claim C4: string-vs-sequence selection resolution -/

/-- C4 counterexample: the driver does not trim the elements obtained by
splitting on commas, so the selection resolved from the string
`"download, preprocess"` differs from the one resolved from the equivalent
sequence `["download", "preprocess"]`. -/
theorem C4_counterexample :
    resolveSteps (.str "download, preprocess") ≠
      resolveSteps (.seq ["download", "preprocess"]) := by
  decide

/-- C4 (amended): the driver resolves a string-valued execution-steps value
by splitting on commas with no trimming; whenever the string is exactly the
names joined by commas (no surrounding whitespace, no commas inside a
name), the resolved selection equals the one obtained from the sequence
supplied directly. -/
theorem C4_amended_split_without_trim (names : List String)
    (hne : names ≠ []) (hc : ∀ nm ∈ names, ',' ∉ nm.data) :
    resolveSteps (.str (joinComma names)) = resolveSteps (.seq names) := by
  simp only [resolveSteps, splitComma, joinComma]
  rw [splitCh_intercalateC ',' (names.map String.data)
    (by simpa using hne)
    (by intro l hl
        obtain ⟨nm, hnm, rfl⟩ := List.mem_map.mp hl
        exact hc nm hnm)]
  rw [List.map_map]
  have : String.mk ∘ String.data = id := rfl
  rw [this, List.map_id]

theorem C4_amended_witness :
    (["segregate", "random_forest"] ≠ ([] : List String)) ∧
    resolveSteps (.str (joinComma ["segregate", "random_forest"])) =
      resolveSteps (.seq ["segregate", "random_forest"]) :=
  ⟨by decide, C4_amended_split_without_trim ["segregate", "random_forest"]
    (by decide) (by decide)⟩

/-! ## Trace structure of the driver -/

theorem appends_seq {f : List Event → List Event × Option Err}
    {g : List Event → List Event × Option Err}
    (hf : Appends f) (hg : Appends g) :
    Appends (fun tr => seqStep (f tr) g) := by
  intro tr
  have h0 := hf []
  have ht := hf tr
  show seqStep (f tr) g = (tr ++ (seqStep (f []) g).1, (seqStep (f []) g).2)
  cases herr : (f []).2 with
  | some e =>
    rw [ht, herr, h0, herr]
    simp [seqStep]
  | none =>
    rw [ht, herr, h0, herr]
    simp only [seqStep, List.nil_append]
    rw [hg ((f []).1), hg (tr ++ (f []).1)]
    simp [List.append_assoc]

theorem eventsOk_seq {P : Event → Prop} {f g : List Event → List Event × Option Err}
    (hf : EventsOk P f) (hg : EventsOk P g) :
    EventsOk P (fun tr => seqStep (f tr) g) := by
  intro tr e he
  simp only at he
  rcases h : f tr with ⟨tr2, err⟩
  cases err with
  | some er =>
    rw [h] at he
    simp only [seqStep] at he
    have := hf tr e (by rw [h]; exact he)
    exact this
  | none =>
    rw [h] at he
    simp only [seqStep] at he
    rcases hg tr2 e he with h2 | h2
    · exact hf tr e (by rw [h]; exact h2)
    · exact Or.inr h2

theorem eventsOk_weaken {P Q : Event → Prop} {f : List Event → List Event × Option Err}
    (hPQ : ∀ e, P e → Q e) (hf : EventsOk P f) : EventsOk Q f :=
  fun tr e he => (hf tr e he).imp id (hPQ e)

theorem downloadStep_appends (w : World) (root : String) (c : Config)
    (steps : List String) : Appends (downloadStep w root c steps) := by
  intro tr
  by_cases h : "download" ∈ steps <;> simp [downloadStep, invoke, h]

theorem preprocessStep_appends (w : World) (root : String) (c : Config)
    (steps : List String) : Appends (preprocessStep w root c steps) := by
  intro tr
  by_cases h : "preprocess" ∈ steps <;> simp [preprocessStep, invoke, h]

theorem check_dataStep_appends (w : World) (root : String) (c : Config)
    (steps : List String) : Appends (check_dataStep w root c steps) := by
  intro tr
  by_cases h : "check_data" ∈ steps <;> simp [check_dataStep, invoke, h]

theorem segregateStep_appends (w : World) (root : String) (c : Config)
    (steps : List String) : Appends (segregateStep w root c steps) := by
  intro tr
  by_cases h : "segregate" ∈ steps <;> simp [segregateStep, invoke, h]

theorem random_forestStep_appends (w : World) (cwd root : String) (c : Config)
    (steps : List String) : Appends (random_forestStep w cwd root c steps) := by
  intro tr
  by_cases h : "random_forest" ∈ steps
  · by_cases h2 : w.writeOk (stagePath cwd "random_forest_config.yml") (yamlContent c)
    · cases h3 : Value.getField c.random_forest_pipeline "export_artifact" <;>
        simp [random_forestStep, invoke, h, h2, h3]
    · simp [random_forestStep, invoke, h, h2]
  · simp [random_forestStep, h]

theorem evaluateStep_appends (w : World) (root : String) (c : Config)
    (steps : List String) : Appends (evaluateStep w root c steps) := by
  intro tr
  by_cases h : "evaluate" ∈ steps
  · cases h3 : Value.getField c.random_forest_pipeline "export_artifact" <;>
      simp [evaluateStep, invoke, h, h3]
  · simp [evaluateStep, h]

theorem downloadStep_events (w : World) (root : String) (c : Config)
    (steps : List String) : EventsOk (isRunOf root "download") (downloadStep w root c steps) := by
  intro tr e he
  by_cases h : "download" ∈ steps <;>
    simp [downloadStep, invoke, h] at he
  · rcases he with he | he
    · exact Or.inl he
    · exact Or.inr ⟨_, he⟩
  · exact Or.inl he

theorem preprocessStep_events (w : World) (root : String) (c : Config)
    (steps : List String) : EventsOk (isRunOf root "preprocess") (preprocessStep w root c steps) := by
  intro tr e he
  by_cases h : "preprocess" ∈ steps <;>
    simp [preprocessStep, invoke, h] at he
  · rcases he with he | he
    · exact Or.inl he
    · exact Or.inr ⟨_, he⟩
  · exact Or.inl he

theorem check_dataStep_events (w : World) (root : String) (c : Config)
    (steps : List String) : EventsOk (isRunOf root "check_data") (check_dataStep w root c steps) := by
  intro tr e he
  by_cases h : "check_data" ∈ steps <;>
    simp [check_dataStep, invoke, h] at he
  · rcases he with he | he
    · exact Or.inl he
    · exact Or.inr ⟨_, he⟩
  · exact Or.inl he

theorem segregateStep_events (w : World) (root : String) (c : Config)
    (steps : List String) : EventsOk (isRunOf root "segregate") (segregateStep w root c steps) := by
  intro tr e he
  by_cases h : "segregate" ∈ steps <;>
    simp [segregateStep, invoke, h] at he
  · rcases he with he | he
    · exact Or.inl he
    · exact Or.inr ⟨_, he⟩
  · exact Or.inl he

theorem random_forestStep_events (w : World) (cwd root : String) (c : Config)
    (steps : List String) :
    EventsOk (fun e => e = Event.fileWrite (stagePath cwd "random_forest_config.yml") (yamlContent c) ∨
      isRunOf root "random_forest" e)
      (random_forestStep w cwd root c steps) := by
  intro tr e he
  by_cases h : "random_forest" ∈ steps
  · by_cases h2 : w.writeOk (stagePath cwd "random_forest_config.yml") (yamlContent c)
    · cases h3 : Value.getField c.random_forest_pipeline "export_artifact" with
      | none =>
        simp [random_forestStep, invoke, h, h2, h3] at he
        rcases he with he | he
        · exact Or.inl he
        · exact Or.inr (Or.inl he)
      | some ev =>
        simp [random_forestStep, invoke, h, h2, h3, List.mem_append] at he
        rcases he with he | he | he
        · exact Or.inl he
        · exact Or.inr (Or.inl he)
        · exact Or.inr (Or.inr ⟨_, he⟩)
    · simp [random_forestStep, invoke, h, h2] at he
      rcases he with he | he
      · exact Or.inl he
      · exact Or.inr (Or.inl he)
  · simp [random_forestStep, h] at he
    exact Or.inl he

theorem evaluateStep_events (w : World) (root : String) (c : Config)
    (steps : List String) : EventsOk (isRunOf root "evaluate") (evaluateStep w root c steps) := by
  intro tr e he
  by_cases h : "evaluate" ∈ steps
  · cases h3 : Value.getField c.random_forest_pipeline "export_artifact" with
    | none =>
      simp [evaluateStep, h, h3] at he
      exact Or.inl he
    | some ev =>
      simp [evaluateStep, invoke, h, h3] at he
      rcases he with he | he
      · exact Or.inl he
      · exact Or.inr ⟨_, he⟩
  · simp [evaluateStep, h] at he
    exact Or.inl he

theorem isRunOf_notSetEnv (root nm : String) (e : Event) (h : isRunOf root nm e) :
    notSetEnv e := by
  obtain ⟨ps, rfl⟩ := h
  intro k v hkv
  exact Event.noConfusion hkv

theorem firstFour_appends (w : World) (root : String) (c : Config)
    (steps : List String) : Appends (firstFour w root c steps) :=
  appends_seq (appends_seq (appends_seq
    (downloadStep_appends w root c steps)
    (preprocessStep_appends w root c steps))
    (check_dataStep_appends w root c steps))
    (segregateStep_appends w root c steps)

theorem firstFour_events (w : World) (root : String) (c : Config)
    (steps : List String) :
    EventsOk (fun e => ∃ nm ∈ (["download", "preprocess", "check_data", "segregate"] : List String),
      isRunOf root nm e) (firstFour w root c steps) :=
  eventsOk_seq (eventsOk_seq (eventsOk_seq
    (eventsOk_weaken (fun e he => ⟨"download", by simp, he⟩)
      (downloadStep_events w root c steps))
    (eventsOk_weaken (fun e he => ⟨"preprocess", by simp, he⟩)
      (preprocessStep_events w root c steps)))
    (eventsOk_weaken (fun e he => ⟨"check_data", by simp, he⟩)
      (check_dataStep_events w root c steps)))
    (eventsOk_weaken (fun e he => ⟨"segregate", by simp, he⟩)
      (segregateStep_events w root c steps))

theorem go_appends (w : World) (cwd root : String) (c : Config) :
    Appends (fun tr => seqStep (seqStep (firstFour w root c (stepsToExecute c) tr)
      (random_forestStep w cwd root c (stepsToExecute c)))
      (evaluateStep w root c (stepsToExecute c))) :=
  appends_seq (appends_seq (firstFour_appends w root c (stepsToExecute c))
    (random_forestStep_appends w cwd root c (stepsToExecute c)))
    (evaluateStep_appends w root c (stepsToExecute c))

theorem go_events_notSetEnv (w : World) (cwd root : String) (c : Config) :
    EventsOk notSetEnv (fun tr => seqStep (seqStep (firstFour w root c (stepsToExecute c) tr)
      (random_forestStep w cwd root c (stepsToExecute c)))
      (evaluateStep w root c (stepsToExecute c))) :=
  eventsOk_seq (eventsOk_seq
    (eventsOk_weaken (fun e he => by
        obtain ⟨nm, _, hr⟩ := he
        exact isRunOf_notSetEnv root nm e hr)
      (firstFour_events w root c (stepsToExecute c)))
    (eventsOk_weaken (fun e he => by
        rcases he with rfl | hr
        · intro k v hkv; exact Event.noConfusion hkv
        · exact isRunOf_notSetEnv root "random_forest" e hr)
      (random_forestStep_events w cwd root c (stepsToExecute c))))
    (eventsOk_weaken (fun e he => isRunOf_notSetEnv root "evaluate" e he)
      (evaluateStep_events w root c (stepsToExecute c)))

/-! ## Claim C9: environment configuration before any stage -/

/-- C9: for every configuration and world, the driver's trace starts with
exactly two environment-variable writes — the project grouping identifier
set to `main.project_name` and the run-group identifier set to
`main.experiment_name` — and no other environment write ever occurs, so
both precede every stage invocation. -/
theorem C9_env_set_before_stages (w : World) (cwd root : String) (c : Config) :
    ∃ rest, (go w cwd root c).1 =
      Event.setEnv "WANDB_PROJECT" c.main.project_name ::
        Event.setEnv "WANDB_RUN_GROUP" c.main.experiment_name :: rest ∧
      ∀ k v, Event.setEnv k v ∉ rest := by
  have hApp := go_appends w cwd root c
  have hEv := go_events_notSetEnv w cwd root c
  have happ := hApp (envEvents c)
  refine ⟨(seqStep (seqStep (firstFour w root c (stepsToExecute c) [])
      (random_forestStep w cwd root c (stepsToExecute c)))
      (evaluateStep w root c (stepsToExecute c))).1, ?_, ?_⟩
  · have hgo : go w cwd root c =
        seqStep (seqStep (firstFour w root c (stepsToExecute c) (envEvents c))
          (random_forestStep w cwd root c (stepsToExecute c)))
          (evaluateStep w root c (stepsToExecute c)) := rfl
    rw [hgo]
    have := happ
    simp only at this
    rw [this]
    rfl
  · intro k v hmem
    have h2 := hEv [] (Event.setEnv k v) hmem
    rcases h2 with h2 | h2
    · exact List.not_mem_nil _ h2
    · exact h2 k v rfl

/-! ## Claim C1: a check_data failure aborts the rest of the pipeline -/

/-- C1: if `check_data` is selected, the stages before it (when selected)
succeed, and the Run Executor fails the `check_data` run, then the driver
propagates that failure to its caller and never invokes `segregate`,
`random_forest` or `evaluate`. -/
theorem C1_check_data_failure_aborts (w : World) (cwd root : String) (c : Config)
    (hsel : "check_data" ∈ stepsToExecute c)
    (hfail : w.runOk (stagePath root "check_data") "main" (check_dataParams c) = false)
    (hdl : "download" ∈ stepsToExecute c →
      w.runOk (stagePath root "download") "main" (downloadParams c) = true)
    (hpp : "preprocess" ∈ stepsToExecute c →
      w.runOk (stagePath root "preprocess") "main" preprocessParams = true) :
    (go w cwd root c).2 = some (Err.runFailed (stagePath root "check_data")) ∧
    (∀ e ps, Event.run (stagePath root "segregate") e ps ∉ (go w cwd root c).1) ∧
    (∀ e ps, Event.run (stagePath root "random_forest") e ps ∉ (go w cwd root c).1) ∧
    (∀ e ps, Event.run (stagePath root "evaluate") e ps ∉ (go w cwd root c).1) := by
  by_cases h1 : "download" ∈ stepsToExecute c
  · have hd := hdl h1
    by_cases h2 : "preprocess" ∈ stepsToExecute c
    · have hp := hpp h2
      simp [go, goWith, firstFour, downloadStep, preprocessStep, check_dataStep, segregateStep,
        random_forestStep, evaluateStep, invoke, seqStep, envEvents,
        h1, h2, hsel, hd, hp, hfail, stagePath_eq_iff]
    · simp [go, goWith, firstFour, downloadStep, preprocessStep, check_dataStep, segregateStep,
        random_forestStep, evaluateStep, invoke, seqStep, envEvents,
        h1, h2, hsel, hd, hfail, stagePath_eq_iff]
  · by_cases h2 : "preprocess" ∈ stepsToExecute c
    · have hp := hpp h2
      simp [go, goWith, firstFour, downloadStep, preprocessStep, check_dataStep, segregateStep,
        random_forestStep, evaluateStep, invoke, seqStep, envEvents,
        h1, h2, hsel, hp, hfail, stagePath_eq_iff]
    · simp [go, goWith, firstFour, downloadStep, preprocessStep, check_dataStep, segregateStep,
        random_forestStep, evaluateStep, invoke, seqStep, envEvents,
        h1, h2, hsel, hfail, stagePath_eq_iff]

/-! ## Claim C7: the training configuration file is written before the run -/

/-- C7: whenever `random_forest` is selected and the pipeline reaches it
(the first four stage statements raised no error), the temporary training
configuration file write is completed immediately before the training run
invocation, whose `model_config` parameter is that file's absolute path;
and if the write fails, the training run is never invoked and the failure
propagates to the caller. -/
theorem C7_model_config_written_before_run (w : World) (cwd root : String)
    (c : Config) (ev : Value)
    (hsel : "random_forest" ∈ stepsToExecute c)
    (h4 : (firstFour w root c (stepsToExecute c) (envEvents c)).2 = none)
    (hexp : Value.getField c.random_forest_pipeline "export_artifact" = some ev) :
    (w.writeOk (stagePath cwd "random_forest_config.yml") (yamlContent c) = true →
      ∃ pre post, (go w cwd root c).1 =
        pre ++ Event.fileWrite (stagePath cwd "random_forest_config.yml") (yamlContent c) ::
          Event.run (stagePath root "random_forest") "main"
            (random_forestParams c (stagePath cwd "random_forest_config.yml") ev.render) :: post) ∧
    ("model_config", stagePath cwd "random_forest_config.yml") ∈
      random_forestParams c (stagePath cwd "random_forest_config.yml") ev.render ∧
    (w.writeOk (stagePath cwd "random_forest_config.yml") (yamlContent c) = false →
      (∀ e ps, Event.run (stagePath root "random_forest") e ps ∉ (go w cwd root c).1) ∧
      (go w cwd root c).2 = some (Err.writeFailed (stagePath cwd "random_forest_config.yml"))) := by
  rcases hFF : firstFour w root c (stepsToExecute c) (envEvents c) with ⟨tr4, err4⟩
  have herr : err4 = none := by rw [hFF] at h4; exact h4
  subst herr
  have hgo : go w cwd root c =
      seqStep (random_forestStep w cwd root c (stepsToExecute c) tr4)
        (evaluateStep w root c (stepsToExecute c)) := by
    show seqStep (seqStep (firstFour w root c (stepsToExecute c) (envEvents c))
        (random_forestStep w cwd root c (stepsToExecute c)))
        (evaluateStep w root c (stepsToExecute c)) = _
    rw [hFF]
    rfl
  refine ⟨?_, by simp [random_forestParams], ?_⟩
  · intro hw
    have hrf : random_forestStep w cwd root c (stepsToExecute c) tr4 =
        ((tr4 ++ [Event.fileWrite (stagePath cwd "random_forest_config.yml") (yamlContent c)]) ++
          [Event.run (stagePath root "random_forest") "main"
            (random_forestParams c (stagePath cwd "random_forest_config.yml") ev.render)],
         if w.runOk (stagePath root "random_forest") "main"
            (random_forestParams c (stagePath cwd "random_forest_config.yml") ev.render)
         then none else some (Err.runFailed (stagePath root "random_forest"))) := by
      simp [random_forestStep, invoke, hsel, hw, hexp]
    by_cases hrun : w.runOk (stagePath root "random_forest") "main"
        (random_forestParams c (stagePath cwd "random_forest_config.yml") ev.render) = true
    · have hev := evaluateStep_appends w root c (stepsToExecute c)
      refine ⟨tr4, (evaluateStep w root c (stepsToExecute c) []).1, ?_⟩
      rw [hgo, hrf, if_pos hrun]
      simp only [seqStep]
      rw [hev]
      simp
    · refine ⟨tr4, [], ?_⟩
      rw [hgo, hrf, if_neg hrun]
      simp [seqStep]
  · intro hw
    have hrf : random_forestStep w cwd root c (stepsToExecute c) tr4 =
        (tr4 ++ [Event.fileWrite (stagePath cwd "random_forest_config.yml") (yamlContent c)],
         some (Err.writeFailed (stagePath cwd "random_forest_config.yml"))) := by
      simp [random_forestStep, hsel, hw]
    have hgo2 : go w cwd root c =
        (tr4 ++ [Event.fileWrite (stagePath cwd "random_forest_config.yml") (yamlContent c)],
         some (Err.writeFailed (stagePath cwd "random_forest_config.yml"))) := by
      rw [hgo, hrf]
      rfl
    constructor
    · intro e ps hmem
      rw [hgo2] at hmem
      simp only [List.mem_append, List.mem_singleton] at hmem
      rcases hmem with hmem | hmem
      · have h4e := firstFour_events w root c (stepsToExecute c) (envEvents c)
          (Event.run (stagePath root "random_forest") e ps) (by rw [hFF]; exact hmem)
        rcases h4e with h4e | h4e
        · simp [envEvents] at h4e
        · obtain ⟨nm, hnm, ps2, hps⟩ := h4e
          have hpath : stagePath root "random_forest" = stagePath root nm := by
            exact congrArg (fun ev2 => match ev2 with
              | Event.run p _ _ => p | _ => "") hps
          have : ("random_forest" : String) = nm := (stagePath_eq_iff root _ _).mp hpath
          rw [← this] at hnm
          simp at hnm
      · exact Event.noConfusion hmem
    · rw [hgo2]

/-! ## Which stages run, in which order -/

theorem go_runPaths_of_success (w : World) (cwd root : String) (c : Config) (ev : Value)
    (hAll : ∀ p e ps, w.runOk p e ps = true)
    (hW : ∀ p s, w.writeOk p s = true)
    (hexp : Value.getField c.random_forest_pipeline "export_artifact" = some ev) :
    runPaths (go w cwd root c).1 =
      (canonicalStages.filter (fun s => s ∈ stepsToExecute c)).map (stagePath root) := by
  by_cases h1 : "download" ∈ stepsToExecute c <;>
  by_cases h2 : "preprocess" ∈ stepsToExecute c <;>
  by_cases h3 : "check_data" ∈ stepsToExecute c <;>
  by_cases h4 : "segregate" ∈ stepsToExecute c <;>
  by_cases h5 : "random_forest" ∈ stepsToExecute c <;>
  by_cases h6 : "evaluate" ∈ stepsToExecute c <;>
  simp [go, goWith, firstFour, downloadStep, preprocessStep, check_dataStep, segregateStep,
    random_forestStep, evaluateStep, invoke, seqStep, envEvents, runPaths,
    canonicalStages, hAll, hW, hexp, h1, h2, h3, h4, h5, h6]

/-! ## Claim C3: exactly the selected stages run, in canonical order -/

/-- C3: when the Run Executor and filesystem succeed (and the configured
export-artifact name exists), the run invocations of the driver are exactly
the selected stages among the six, each exactly once, in the fixed
canonical order download, preprocess, check_data, segregate,
random_forest, evaluate; unselected stages are never invoked. -/
theorem C3_selected_stages_in_canonical_order (w : World) (cwd root : String)
    (c : Config) (ev : Value)
    (hAll : ∀ p e ps, w.runOk p e ps = true)
    (hW : ∀ p s, w.writeOk p s = true)
    (hexp : Value.getField c.random_forest_pipeline "export_artifact" = some ev) :
    runPaths (go w cwd root c).1 =
      (canonicalStages.filter (fun s => s ∈ stepsToExecute c)).map (stagePath root) :=
  go_runPaths_of_success w cwd root c ev hAll hW hexp

theorem C3_witness :
    runPaths (go ⟨fun _ _ _ => true, fun _ _ => true⟩ "/tmp" "/proj"
      ⟨⟨"proj", "exp", "42", .str "segregate,random_forest"⟩,
       ⟨"http://x/y.csv", "ref.csv:latest", "0.05", "0.3", "genre"⟩,
       .map (.cons "export_artifact" (.scalar "model_export") .nil)⟩).1 =
      ["/proj/segregate", "/proj/random_forest"] := by
  have h := C3_selected_stages_in_canonical_order
    ⟨fun _ _ _ => true, fun _ _ => true⟩ "/tmp" "/proj"
    ⟨⟨"proj", "exp", "42", .str "segregate,random_forest"⟩,
     ⟨"http://x/y.csv", "ref.csv:latest", "0.05", "0.3", "genre"⟩,
     .map (.cons "export_artifact" (.scalar "model_export") .nil)⟩
    (.scalar "model_export") (fun _ _ _ => rfl) (fun _ _ => rfl) rfl
  rw [h]
  rfl

/-! ## Claim C5: an absent execution-steps value selects all six stages -/

/-- C5: when the execution-steps value is the configuration default — which
is, per the spec's account of the configuration file, all six stage names
in canonical order — the driver invokes all six stages in order (executor
and filesystem succeeding).  Modelled from the spec: the default comes from
`config.yaml`, which is not under `src/`. -/
theorem C5_default_selection_runs_all_six (w : World) (cwd root : String)
    (c : Config) (ev : Value)
    (hdef : c.main.execute_steps = defaultExecuteSteps)
    (hAll : ∀ p e ps, w.runOk p e ps = true)
    (hW : ∀ p s, w.writeOk p s = true)
    (hexp : Value.getField c.random_forest_pipeline "export_artifact" = some ev) :
    runPaths (go w cwd root c).1 = canonicalStages.map (stagePath root) := by
  have h := go_runPaths_of_success w cwd root c ev hAll hW hexp
  have hsteps : stepsToExecute c = canonicalStages := by
    show resolveSteps c.main.execute_steps = canonicalStages
    rw [hdef]
    rfl
  rw [h, hsteps]
  have : canonicalStages.filter (fun s => s ∈ canonicalStages) = canonicalStages := by
    decide
  rw [this]

theorem C5_witness :
    runPaths (go ⟨fun _ _ _ => true, fun _ _ => true⟩ "/tmp" "/proj"
      ⟨⟨"proj", "exp", "42", defaultExecuteSteps⟩,
       ⟨"http://x/y.csv", "ref.csv:latest", "0.05", "0.3", "genre"⟩,
       .map (.cons "export_artifact" (.scalar "model_export") .nil)⟩).1 =
      ["/proj/download", "/proj/preprocess", "/proj/check_data", "/proj/segregate",
       "/proj/random_forest", "/proj/evaluate"] := by
  have h := C5_default_selection_runs_all_six
    ⟨fun _ _ _ => true, fun _ _ => true⟩ "/tmp" "/proj"
    ⟨⟨"proj", "exp", "42", defaultExecuteSteps⟩,
     ⟨"http://x/y.csv", "ref.csv:latest", "0.05", "0.3", "genre"⟩,
     .map (.cons "export_artifact" (.scalar "model_export") .nil)⟩
    (.scalar "model_export") rfl (fun _ _ _ => rfl) (fun _ _ => rfl) rfl
  rw [h]
  rfl

/-! ## Claim C8: unknown stage names are silently inert -/

theorem downloadStep_congr (w : World) (root : String) (c : Config)
    {s1 s2 : List String} (h : ("download" ∈ s1) ↔ ("download" ∈ s2)) :
    downloadStep w root c s1 = downloadStep w root c s2 := by
  funext tr
  by_cases hm : "download" ∈ s1
  · simp only [downloadStep, if_pos hm, if_pos (h.mp hm)]
  · simp only [downloadStep, if_neg hm, if_neg (fun hh => hm (h.mpr hh))]

theorem preprocessStep_congr (w : World) (root : String) (c : Config)
    {s1 s2 : List String} (h : ("preprocess" ∈ s1) ↔ ("preprocess" ∈ s2)) :
    preprocessStep w root c s1 = preprocessStep w root c s2 := by
  funext tr
  by_cases hm : "preprocess" ∈ s1
  · simp only [preprocessStep, if_pos hm, if_pos (h.mp hm)]
  · simp only [preprocessStep, if_neg hm, if_neg (fun hh => hm (h.mpr hh))]

theorem check_dataStep_congr (w : World) (root : String) (c : Config)
    {s1 s2 : List String} (h : ("check_data" ∈ s1) ↔ ("check_data" ∈ s2)) :
    check_dataStep w root c s1 = check_dataStep w root c s2 := by
  funext tr
  by_cases hm : "check_data" ∈ s1
  · simp only [check_dataStep, if_pos hm, if_pos (h.mp hm)]
  · simp only [check_dataStep, if_neg hm, if_neg (fun hh => hm (h.mpr hh))]

theorem segregateStep_congr (w : World) (root : String) (c : Config)
    {s1 s2 : List String} (h : ("segregate" ∈ s1) ↔ ("segregate" ∈ s2)) :
    segregateStep w root c s1 = segregateStep w root c s2 := by
  funext tr
  by_cases hm : "segregate" ∈ s1
  · simp only [segregateStep, if_pos hm, if_pos (h.mp hm)]
  · simp only [segregateStep, if_neg hm, if_neg (fun hh => hm (h.mpr hh))]

theorem random_forestStep_congr (w : World) (cwd root : String) (c : Config)
    {s1 s2 : List String} (h : ("random_forest" ∈ s1) ↔ ("random_forest" ∈ s2)) :
    random_forestStep w cwd root c s1 = random_forestStep w cwd root c s2 := by
  funext tr
  by_cases hm : "random_forest" ∈ s1
  · simp only [random_forestStep, if_pos hm, if_pos (h.mp hm)]
  · simp only [random_forestStep, if_neg hm, if_neg (fun hh => hm (h.mpr hh))]

theorem evaluateStep_congr (w : World) (root : String) (c : Config)
    {s1 s2 : List String} (h : ("evaluate" ∈ s1) ↔ ("evaluate" ∈ s2)) :
    evaluateStep w root c s1 = evaluateStep w root c s2 := by
  funext tr
  by_cases hm : "evaluate" ∈ s1
  · simp only [evaluateStep, if_pos hm, if_pos (h.mp hm)]
  · simp only [evaluateStep, if_neg hm, if_neg (fun hh => hm (h.mpr hh))]

theorem goWith_steps_congr (w : World) (cwd root : String) (c : Config)
    (s1 s2 : List String)
    (hd : ("download" ∈ s1) ↔ ("download" ∈ s2))
    (hp : ("preprocess" ∈ s1) ↔ ("preprocess" ∈ s2))
    (hc : ("check_data" ∈ s1) ↔ ("check_data" ∈ s2))
    (hs : ("segregate" ∈ s1) ↔ ("segregate" ∈ s2))
    (hr : ("random_forest" ∈ s1) ↔ ("random_forest" ∈ s2))
    (he : ("evaluate" ∈ s1) ↔ ("evaluate" ∈ s2)) :
    goWith w cwd root c s1 = goWith w cwd root c s2 := by
  show seqStep (seqStep (seqStep (seqStep (seqStep
      (downloadStep w root c s1 (envEvents c))
      (preprocessStep w root c s1))
      (check_dataStep w root c s1))
      (segregateStep w root c s1))
      (random_forestStep w cwd root c s1))
      (evaluateStep w root c s1) = _
  rw [downloadStep_congr w root c hd, preprocessStep_congr w root c hp,
    check_dataStep_congr w root c hc, segregateStep_congr w root c hs,
    random_forestStep_congr w cwd root c hr, evaluateStep_congr w root c he]
  rfl

/-- C8: names in the execution selection that are not among the six fixed
stage names are silently inert: the driver behaves exactly as if they were
absent (recognized names in the same selection run normally), and a
selection containing only unknown names invokes no stage and raises no
error. -/
theorem C8_unknown_names_inert (w : World) (cwd root : String) (c : Config)
    (l : List String) :
    go w cwd root { c with main := { c.main with execute_steps := .seq l } } =
      go w cwd root { c with main :=
        { c.main with execute_steps := .seq (l.filter (fun s => s ∈ canonicalStages)) } } ∧
    ((∀ s ∈ l, s ∉ canonicalStages) →
      go w cwd root { c with main := { c.main with execute_steps := .seq l } } =
        (envEvents c, none)) := by
  constructor
  · have hd : ("download" ∈ l) ↔ ("download" ∈ l.filter (fun s => s ∈ canonicalStages)) := by
      simp [List.mem_filter, canonicalStages]
    have hp : ("preprocess" ∈ l) ↔ ("preprocess" ∈ l.filter (fun s => s ∈ canonicalStages)) := by
      simp [List.mem_filter, canonicalStages]
    have hc : ("check_data" ∈ l) ↔ ("check_data" ∈ l.filter (fun s => s ∈ canonicalStages)) := by
      simp [List.mem_filter, canonicalStages]
    have hs : ("segregate" ∈ l) ↔ ("segregate" ∈ l.filter (fun s => s ∈ canonicalStages)) := by
      simp [List.mem_filter, canonicalStages]
    have hr : ("random_forest" ∈ l) ↔
        ("random_forest" ∈ l.filter (fun s => s ∈ canonicalStages)) := by
      simp [List.mem_filter, canonicalStages]
    have he : ("evaluate" ∈ l) ↔ ("evaluate" ∈ l.filter (fun s => s ∈ canonicalStages)) := by
      simp [List.mem_filter, canonicalStages]
    show goWith w cwd root { c with main := { c.main with execute_steps := .seq l } } l = _
    rw [goWith_steps_congr w cwd root _ l (l.filter (fun s => s ∈ canonicalStages))
      hd hp hc hs hr he]
    rfl
  · intro hunk
    have hd : "download" ∉ l := fun h => hunk _ h (by decide)
    have hp : "preprocess" ∉ l := fun h => hunk _ h (by decide)
    have hc : "check_data" ∉ l := fun h => hunk _ h (by decide)
    have hs : "segregate" ∉ l := fun h => hunk _ h (by decide)
    have hr : "random_forest" ∉ l := fun h => hunk _ h (by decide)
    have he : "evaluate" ∉ l := fun h => hunk _ h (by decide)
    simp [go, goWith, firstFour, downloadStep, preprocessStep, check_dataStep, segregateStep,
      random_forestStep, evaluateStep, stepsToExecute, resolveSteps, envEvents, seqStep,
      hd, hp, hc, hs, hr, he]

theorem C8_witness :
    (go ⟨fun _ _ _ => true, fun _ _ => true⟩ "/tmp" "/proj"
      ⟨⟨"proj", "exp", "42", .seq ["bogus", "mystery"]⟩,
       ⟨"http://x/y.csv", "ref.csv:latest", "0.05", "0.3", "genre"⟩,
       .map (.cons "export_artifact" (.scalar "model_export") .nil)⟩).1 =
      envEvents ⟨⟨"proj", "exp", "42", .seq ["bogus", "mystery"]⟩,
       ⟨"http://x/y.csv", "ref.csv:latest", "0.05", "0.3", "genre"⟩,
       .map (.cons "export_artifact" (.scalar "model_export") .nil)⟩ := by
  have h := (C8_unknown_names_inert ⟨fun _ _ _ => true, fun _ _ => true⟩ "/tmp" "/proj"
    ⟨⟨"proj", "exp", "42", .seq ["bogus", "mystery"]⟩,
     ⟨"http://x/y.csv", "ref.csv:latest", "0.05", "0.3", "genre"⟩,
     .map (.cons "export_artifact" (.scalar "model_export") .nil)⟩
    ["bogus", "mystery"]).2 (by decide)
  rw [h]

/-! ## Round trip of the serialization format -/

theorem indentC_length (n : Nat) : (indentC n).length = n := by
  simp [indentC]

theorem take_indentC (n : Nat) (r : List Char) : (indentC n ++ r).take n = indentC n := by
  have h := List.take_left (indentC n) r
  rwa [indentC_length] at h

theorem drop_indentC (n : Nat) (r : List Char) : (indentC n ++ r).drop n = r := by
  have h := List.drop_left (indentC n) r
  rwa [indentC_length] at h

theorem leadingSpaces_indent (n : Nat) (c : Char) (r : List Char) (h : c ≠ ' ') :
    leadingSpaces (indentC n ++ c :: r) = n := by
  induction n with
  | zero =>
    simp [indentC, leadingSpaces, List.takeWhile_cons, h]
  | succ n ih =>
    simp only [indentC, List.replicate_succ, List.cons_append] at ih ⊢
    simp only [leadingSpaces, List.takeWhile_cons] at ih ⊢
    simp only [decide_True, if_true, List.length_cons]
    omega

theorem chOK_not_mem (l : List Char) (h : chOK l = true) : '\n' ∉ l := by
  simp only [chOK, List.all_eq_true, decide_eq_true_eq] at h
  intro hm
  exact h _ hm rfl

theorem keyOK_spec (k : List Char) (h : keyOK k = true) :
    (∃ c cs, k = c :: cs ∧ c ≠ ' ' ∧ c ≠ '-') ∧ ':' ∉ k ∧ '\n' ∉ k := by
  rcases k with _ | ⟨c, cs⟩
  · simp [keyOK] at h
  · simp only [keyOK, Bool.and_eq_true, List.all_eq_true, decide_eq_true_eq] at h
    obtain ⟨⟨h1, h2⟩, h3⟩ := h
    refine ⟨⟨c, cs, rfl, h1, h2⟩, ?_, ?_⟩
    · intro hm
      exact (h3 _ hm).1 rfl
    · intro hm
      exact (h3 _ hm).2 rfl

theorem leadingSpaces_indent_key (n : Nat) (k r : List Char) (hk : keyOK k = true) :
    leadingSpaces (indentC n ++ k ++ r) = n := by
  obtain ⟨⟨c, cs, rfl, hsp, _⟩, _, _⟩ := keyOK_spec k hk
  rw [List.append_assoc, List.cons_append]
  exact leadingSpaces_indent n c (cs ++ r) hsp

theorem dropIndent_indent (n : Nat) (c : Char) (r : List Char) (h : c ≠ ' ') :
    dropIndent n (indentC n ++ c :: r) = some (c :: r) := by
  unfold dropIndent
  rw [take_indentC, if_pos rfl, drop_indentC]
  split
  · next x heq =>
    rw [List.cons.injEq] at heq
    exact absurd heq.1 h
  · rfl

theorem splitAtColon_append (k r : List Char) (h : ':' ∉ k) :
    splitAtColon (k ++ ':' :: r) = some (k, r) := by
  induction k with
  | nil => simp [splitAtColon]
  | cons c cs ih =>
    have hc : c ≠ ':' := fun hh => h (hh ▸ List.mem_cons_self c cs)
    have hcs : ':' ∉ cs := fun hh => h (List.mem_cons_of_mem c hh)
    simp only [List.cons_append, splitAtColon, if_neg hc, List.append_eq]
    rw [ih hcs]

theorem takeWhile_append_all (p : α → Bool) (l1 l2 : List α)
    (h1 : ∀ x ∈ l1, p x = true) (h2 : ∀ x, l2.head? = some x → p x = false) :
    (l1 ++ l2).takeWhile p = l1 ∧ (l1 ++ l2).dropWhile p = l2 := by
  induction l1 with
  | nil =>
    cases l2 with
    | nil => simp
    | cons b bs =>
      have hb := h2 b rfl
      simp [List.takeWhile_cons, List.dropWhile_cons, hb]
  | cons a as ih =>
    have ha := h1 a (List.mem_cons_self a as)
    have has : ∀ x ∈ as, p x = true := fun x hx => h1 x (List.mem_cons_of_mem a hx)
    obtain ⟨iht, ihd⟩ := ih has
    simp [List.takeWhile_cons, List.dropWhile_cons, ha, iht, ihd]

theorem arrItem_elem (n : Nat) (x : List Char) :
    arrItem n (indentC n ++ '-' :: ' ' :: x) = some x := by
  have hsh : indentC n ++ '-' :: ' ' :: x = (indentC n ++ ['-', ' ']) ++ x := by simp
  rw [hsh]
  unfold arrItem
  have hlen : (indentC n ++ ['-', ' ']).length = n + 2 := by simp [indentC]
  have ht := List.take_left (indentC n ++ ['-', ' ']) x
  rw [hlen] at ht
  have hd := List.drop_left (indentC n ++ ['-', ' ']) x
  rw [hlen] at hd
  rw [ht, if_pos rfl, hd]

theorem arrItem_key_none (n : Nat) (k r : List Char) (hk : keyOK k = true) :
    arrItem n (indentC n ++ k ++ r) = none := by
  obtain ⟨⟨c, cs, rfl, _, hdash⟩, _, _⟩ := keyOK_spec k hk
  unfold arrItem
  rw [if_neg]
  intro habs
  rw [List.append_assoc, List.cons_append,
    show n + 2 = (indentC n).length + 2 from by rw [indentC_length],
    List.take_append] at habs
  have h2 := List.append_cancel_left habs
  rw [List.take_succ_cons, List.cons.injEq] at h2
  exact hdash h2.1

theorem mapOpt_arrItem (n : Nat) (xs : List String) :
    mapOpt (arrItem n) (xs.map (fun x => indentC n ++ '-' :: ' ' :: x.data)) =
      some (xs.map String.data) := by
  induction xs with
  | nil => rfl
  | cons x xs ih => simp [mapOpt, arrItem_elem, ih]

theorem not_nl_indent (n : Nat) : '\n' ∉ indentC n := by
  simp [indentC, List.mem_replicate]

theorem wfFields_spec (k : String) (v : Value) (rest : Fields)
    (h : wfFields (.cons k v rest) = true) :
    keyOK k.data = true ∧ wfVal v = true ∧ wfFields rest = true := by
  have h2 : (keyOK k.data && wfVal v && wfFields rest) = true := h
  simp only [Bool.and_eq_true] at h2
  exact ⟨h2.1.1, h2.1.2, h2.2⟩

theorem wfVal_map_spec (fs : Fields) (h : wfVal (.map fs) = true) :
    wfFields fs = true ∧ ∃ k v r, fs = .cons k v r := by
  cases fs with
  | nil => simp [wfVal] at h
  | cons k v r => exact ⟨h, k, v, r, rfl⟩

theorem wfVal_arr_spec (xs : List String) (h : wfVal (.arr xs) = true) :
    xs ≠ [] ∧ ∀ x ∈ xs, chOK x.data = true := by
  simp only [wfVal, Bool.and_eq_true, Bool.not_eq_true', List.all_eq_true] at h
  exact ⟨fun hh => by simp [hh] at h, h.2⟩

theorem emitVal_ne_nil (n : Nat) (k : List Char) (v : Value) : emitVal n k v ≠ [] := by
  cases v <;> simp [emitVal]

theorem emitVal_head_shape (n : Nat) (k : List Char) (v : Value) :
    ∃ r, (emitVal n k v).head? = some ((indentC n ++ k) ++ r) := by
  cases v with
  | scalar s => exact ⟨':' :: ' ' :: s.data, rfl⟩
  | arr xs => exact ⟨[':'], rfl⟩
  | map fs => exact ⟨[':'], rfl⟩

theorem head_append_of_head (a b : List α) (x : α) (h : a.head? = some x) :
    (a ++ b).head? = some x := by
  cases a with
  | nil => exact absurd h (by simp)
  | cons y t => simpa using h

mutual
theorem emitVal_lines_le (n : Nat) (k : List Char) (v : Value) (hk : keyOK k = true)
    (hv : wfVal v = true) : ∀ m ∈ emitVal n k v, n ≤ leadingSpaces m := by
  cases v with
  | scalar s =>
    intro m hm
    simp only [emitVal, List.mem_singleton] at hm
    subst hm
    rw [leadingSpaces_indent_key n k _ hk]
  | arr xs =>
    intro m hm
    simp only [emitVal, List.mem_cons] at hm
    rcases hm with rfl | hm
    · rw [leadingSpaces_indent_key n k _ hk]
    · obtain ⟨x, _, rfl⟩ := List.mem_map.mp hm
      have hls : leadingSpaces (indentC (n + 2) ++ '-' :: ' ' :: x.data) = n + 2 :=
        leadingSpaces_indent (n + 2) '-' (' ' :: x.data) (by decide)
      have hsh : (indentC (n + 2) ++ ['-', ' ']) ++ x.data =
          indentC (n + 2) ++ '-' :: ' ' :: x.data := by simp
      rw [hsh, hls]
      omega
  | map fs =>
    intro m hm
    simp only [emitVal, List.mem_cons] at hm
    rcases hm with rfl | hm
    · rw [leadingSpaces_indent_key n k _ hk]
    · obtain ⟨hwfF, _⟩ := wfVal_map_spec fs hv
      have := emitFields_lines_le (n + 2) fs hwfF m hm
      omega

theorem emitFields_lines_le (n : Nat) (fs : Fields) (hf : wfFields fs = true) :
    ∀ m ∈ emitFields n fs, n ≤ leadingSpaces m := by
  cases fs with
  | nil =>
    intro m hm
    simp [emitFields] at hm
  | cons k v rest =>
    intro m hm
    simp only [emitFields, List.mem_append] at hm
    obtain ⟨hk, hv, hrest⟩ := wfFields_spec k v rest hf
    rcases hm with hm | hm
    · exact emitVal_lines_le n k.data v hk hv m hm
    · exact emitFields_lines_le n rest hrest m hm
end

theorem emitFields_head_le (n : Nat) (fs : Fields) (hf : wfFields fs = true) :
    ∀ m, (emitFields n fs).head? = some m → leadingSpaces m ≤ n := by
  cases fs with
  | nil =>
    intro m hm
    simp [emitFields] at hm
  | cons k v rest =>
    intro m hm
    obtain ⟨hk, _, _⟩ := wfFields_spec k v rest hf
    obtain ⟨r, hr⟩ := emitVal_head_shape n k.data v
    have hm2 : (emitFields n (.cons k v rest)).head? = some ((indentC n ++ k.data) ++ r) := by
      show (emitVal n k.data v ++ emitFields n rest).head? = _
      exact head_append_of_head _ _ _ hr
    rw [hm2] at hm
    cases hm
    rw [leadingSpaces_indent_key n k.data r hk]

mutual
theorem emitVal_noNL (n : Nat) (k : List Char) (v : Value) (hk : keyOK k = true)
    (hv : wfVal v = true) : ∀ m ∈ emitVal n k v, '\n' ∉ m := by
  have hknl : '\n' ∉ k := (keyOK_spec k hk).2.2
  cases v with
  | scalar s =>
    intro m hm
    simp only [emitVal, List.mem_singleton] at hm
    subst hm
    intro hmem
    rcases List.mem_append.mp hmem with h | h
    · rcases List.mem_append.mp h with h2 | h2
      · exact not_nl_indent n h2
      · exact hknl h2
    · simp only [List.mem_cons] at h
      rcases h with h | h | h
      · exact absurd h (by decide)
      · exact absurd h (by decide)
      · exact chOK_not_mem s.data hv h
  | arr xs =>
    intro m hm
    simp only [emitVal, List.mem_cons] at hm
    obtain ⟨_, hxs⟩ := wfVal_arr_spec xs hv
    rcases hm with rfl | hm
    · intro hmem
      rcases List.mem_append.mp hmem with h | h
      · rcases List.mem_append.mp h with h2 | h2
        · exact not_nl_indent n h2
        · exact hknl h2
      · simp at h
    · obtain ⟨x, hx, rfl⟩ := List.mem_map.mp hm
      intro hmem
      rcases List.mem_append.mp hmem with h | h
      · rcases List.mem_append.mp h with h2 | h2
        · exact not_nl_indent (n + 2) h2
        · simp at h2
      · exact chOK_not_mem x.data (hxs x hx) h
  | map fs =>
    intro m hm
    simp only [emitVal, List.mem_cons] at hm
    obtain ⟨hwfF, _⟩ := wfVal_map_spec fs hv
    rcases hm with rfl | hm
    · intro hmem
      rcases List.mem_append.mp hmem with h | h
      · rcases List.mem_append.mp h with h2 | h2
        · exact not_nl_indent n h2
        · exact hknl h2
      · simp at h
    · exact emitFields_noNL (n + 2) fs hwfF m hm

theorem emitFields_noNL (n : Nat) (fs : Fields) (hf : wfFields fs = true) :
    ∀ m ∈ emitFields n fs, '\n' ∉ m := by
  cases fs with
  | nil =>
    intro m hm
    simp [emitFields] at hm
  | cons k v rest =>
    intro m hm
    simp only [emitFields, List.mem_append] at hm
    obtain ⟨hk, hv, hrest⟩ := wfFields_spec k v rest hf
    rcases hm with hm | hm
    · exact emitVal_noNL n k.data v hk hv m hm
    · exact emitFields_noNL n rest hrest m hm
end

mutual
theorem parse_emitVal (n : Nat) (k : String) (v : Value) (tl : List (List Char))
    (fsr : Fields) (hk : keyOK k.data = true) (hv : wfVal v = true)
    (htl : parseFields n tl = some fsr)
    (htlHead : ∀ m, tl.head? = some m → leadingSpaces m ≤ n) :
    parseFields n (emitVal n k.data v ++ tl) = some (Fields.cons k v fsr) := by
  obtain ⟨⟨c, cs, hkd, hsp, hdash⟩, hcol, hnl⟩ := keyOK_spec k.data hk
  cases v with
  | scalar s =>
    have hline : emitVal n k.data (.scalar s) ++ tl =
        ((indentC n ++ k.data) ++ (':' :: ' ' :: s.data)) :: tl := rfl
    rw [hline, parseFields]
    have hdi : dropIndent n ((indentC n ++ k.data) ++ (':' :: ' ' :: s.data)) =
        some (k.data ++ ':' :: ' ' :: s.data) := by
      rw [hkd, List.append_assoc, List.cons_append]
      exact dropIndent_indent n c _ hsp
    have hsc : splitAtColon (k.data ++ ':' :: ' ' :: s.data) =
        some (k.data, ' ' :: s.data) := splitAtColon_append k.data _ hcol
    simp only [hdi, hsc, htl]
  | map fs =>
    obtain ⟨hwfF, k2, v2, r2, hfs⟩ := wfVal_map_spec fs hv
    have hline : emitVal n k.data (.map fs) ++ tl =
        ((indentC n ++ k.data) ++ [':']) :: (emitFields (n + 2) fs ++ tl) := rfl
    rw [hline, parseFields]
    have hdi : dropIndent n ((indentC n ++ k.data) ++ [':']) = some (k.data ++ [':']) := by
      rw [hkd, List.append_assoc, List.cons_append]
      exact dropIndent_indent n c _ hsp
    have hsc : splitAtColon (k.data ++ [':']) = some (k.data, []) :=
      splitAtColon_append k.data [] hcol
    have hP1 : ∀ m ∈ emitFields (n + 2) fs,
        (fun m => decide (n < leadingSpaces m)) m = true := by
      intro m hm
      have := emitFields_lines_le (n + 2) fs hwfF m hm
      simp only [decide_eq_true_eq]
      omega
    have hP2 : ∀ m, tl.head? = some m →
        (fun m => decide (n < leadingSpaces m)) m = false := by
      intro m hm
      have := htlHead m hm
      simp only [decide_eq_false_iff_not]
      omega
    obtain ⟨htw, hdw⟩ := takeWhile_append_all (fun m => decide (n < leadingSpaces m))
      (emitFields (n + 2) fs) tl hP1 hP2
    subst hfs
    obtain ⟨hk2, hv2, hr2⟩ := wfFields_spec k2 v2 r2 hwfF
    obtain ⟨r3, hr3⟩ := emitVal_head_shape (n + 2) k2.data v2
    have hhead : (emitFields (n + 2) (Fields.cons k2 v2 r2)).head? =
        some ((indentC (n + 2) ++ k2.data) ++ r3) := by
      show (emitVal (n + 2) k2.data v2 ++ emitFields (n + 2) r2).head? = _
      exact head_append_of_head _ _ _ hr3
    have harr : arrItem (n + 2) ((indentC (n + 2) ++ k2.data) ++ r3) = none :=
      arrItem_key_none (n + 2) k2.data r3 hk2
    have hrec : parseFields (n + 2) (emitFields (n + 2) (Fields.cons k2 v2 r2)) =
        some (Fields.cons k2 v2 r2) :=
      parse_emitFields (n + 2) (Fields.cons k2 v2 r2) hwfF
    simp only [hdi, hsc, htw, hdw, hhead, harr, hrec, htl]
  | arr xs =>
    obtain ⟨hne, hxsOK⟩ := wfVal_arr_spec xs hv
    have hline : emitVal n k.data (.arr xs) ++ tl =
        ((indentC n ++ k.data) ++ [':']) ::
          (xs.map (fun x => indentC (n + 2) ++ '-' :: ' ' :: x.data) ++ tl) := by
      simp [emitVal]
    rw [hline, parseFields]
    have hdi : dropIndent n ((indentC n ++ k.data) ++ [':']) = some (k.data ++ [':']) := by
      rw [hkd, List.append_assoc, List.cons_append]
      exact dropIndent_indent n c _ hsp
    have hsc : splitAtColon (k.data ++ [':']) = some (k.data, []) :=
      splitAtColon_append k.data [] hcol
    have hP1 : ∀ m ∈ xs.map (fun x => indentC (n + 2) ++ '-' :: ' ' :: x.data),
        (fun m => decide (n < leadingSpaces m)) m = true := by
      intro m hm
      obtain ⟨x, _, rfl⟩ := List.mem_map.mp hm
      have hls : leadingSpaces (indentC (n + 2) ++ '-' :: ' ' :: x.data) = n + 2 :=
        leadingSpaces_indent (n + 2) '-' (' ' :: x.data) (by decide)
      simp only [decide_eq_true_eq, hls]
      omega
    have hP2 : ∀ m, tl.head? = some m →
        (fun m => decide (n < leadingSpaces m)) m = false := by
      intro m hm
      have := htlHead m hm
      simp only [decide_eq_false_iff_not]
      omega
    obtain ⟨htw, hdw⟩ := takeWhile_append_all (fun m => decide (n < leadingSpaces m))
      (xs.map (fun x => indentC (n + 2) ++ '-' :: ' ' :: x.data)) tl hP1 hP2
    rcases xs with _ | ⟨x0, xs2⟩
    · exact absurd rfl hne
    · have hmo := mapOpt_arrItem (n + 2) (x0 :: xs2)
      have harr := arrItem_elem (n + 2) x0.data
      simp only [List.map_cons, List.head?_cons] at htw hdw hmo ⊢
      simp only [hdi, hsc, htw, hdw, List.head?_cons, harr, hmo, htl]
      simp only [List.map_cons, List.map_map]
      have hid : String.mk ∘ String.data = id := rfl
      rw [hid, List.map_id]

theorem parse_emitFields (n : Nat) (fs : Fields) (hf : wfFields fs = true) :
    parseFields n (emitFields n fs) = some fs := by
  cases fs with
  | nil =>
    show parseFields n [] = some Fields.nil
    rw [parseFields]
  | cons k v rest =>
    obtain ⟨hk, hv, hrest⟩ := wfFields_spec k v rest hf
    have htl := parse_emitFields n rest hrest
    have hhead := emitFields_head_le n rest hrest
    exact parse_emitVal n k v (emitFields n rest) rest hk hv htl hhead
end

theorem yaml_roundtrip (v : Value) (h : wfSection v = true) :
    parseYaml (toYamlStr v) = some v := by
  rcases v with s | xs | fs
  · simp [wfSection] at h
  · simp [wfSection] at h
  · rcases fs with _ | ⟨k, v2, rest⟩
    · simp [wfSection] at h
    · have hwf : wfFields (Fields.cons k v2 rest) = true := h
      have hlines : splitCh '\n' (toYamlStr (Value.map (Fields.cons k v2 rest))).data =
          emitFields 0 (Fields.cons k v2 rest) := by
        show splitCh '\n' (intercalateC '\n' (emitFields 0 (Fields.cons k v2 rest))) = _
        apply splitCh_intercalateC
        · show emitVal 0 k.data v2 ++ emitFields 0 rest ≠ []
          intro habs
          exact emitVal_ne_nil 0 k.data v2 (List.append_eq_nil.mp habs).1
        · exact emitFields_noNL 0 (Fields.cons k v2 rest) hwf
      show (match parseFields 0 (splitCh '\n'
          (toYamlStr (Value.map (Fields.cons k v2 rest))).data) with
        | some fs => some (Value.map fs)
        | none => none) = some (Value.map (Fields.cons k v2 rest))
      rw [hlines, parse_emitFields 0 (Fields.cons k v2 rest) hwf]

/-! ## Claim C6: the training configuration file round-trips -/

/-- C6: for every configuration whose `random_forest_pipeline` section is a
serializable mapping, the serialized section round-trips, and in every
execution any content the driver writes to the temporary training
configuration file, parsed back from its serialization format, yields a
structure equal to the `random_forest_pipeline` section of the original
configuration. -/
theorem C6_training_config_roundtrip (w : World) (cwd root : String) (c : Config)
    (h : wfSection c.random_forest_pipeline = true) :
    parseYaml (yamlContent c) = some c.random_forest_pipeline ∧
    ∀ ct, Event.fileWrite (stagePath cwd "random_forest_config.yml") ct ∈ (go w cwd root c).1 →
      parseYaml ct = some c.random_forest_pipeline := by
  have hrt := yaml_roundtrip c.random_forest_pipeline h
  refine ⟨hrt, ?_⟩
  intro ct hmem
  have hEv : EventsOk (fun e => ∀ p ct2, e = Event.fileWrite p ct2 → ct2 = yamlContent c)
      (fun tr => seqStep (seqStep (firstFour w root c (stepsToExecute c) tr)
        (random_forestStep w cwd root c (stepsToExecute c)))
        (evaluateStep w root c (stepsToExecute c))) :=
    eventsOk_seq (eventsOk_seq
      (eventsOk_weaken (fun e he => by
          obtain ⟨nm, _, ps, rfl⟩ := he
          intro p ct2 habs
          exact Event.noConfusion habs)
        (firstFour_events w root c (stepsToExecute c)))
      (eventsOk_weaken (fun e he => by
          rcases he with rfl | ⟨ps, rfl⟩
          · intro p ct2 habs
            injection habs with h1 h2
            exact h2.symm
          · intro p ct2 habs
            exact Event.noConfusion habs)
        (random_forestStep_events w cwd root c (stepsToExecute c))))
      (eventsOk_weaken (fun e he => by
          obtain ⟨ps, rfl⟩ := he
          intro p ct2 habs
          exact Event.noConfusion habs)
        (evaluateStep_events w root c (stepsToExecute c)))
  have hq := hEv (envEvents c)
    (Event.fileWrite (stagePath cwd "random_forest_config.yml") ct) hmem
  rcases hq with hq | hq
  · simp [envEvents] at hq
  · have := hq (stagePath cwd "random_forest_config.yml") ct rfl
    rw [this]
    exact hrt

theorem C6_witness :
    wfSection (sampleConfig (.str "random_forest")).random_forest_pipeline = true ∧
    parseYaml (yamlContent (sampleConfig (.str "random_forest"))) =
      some (sampleConfig (.str "random_forest")).random_forest_pipeline :=
  ⟨by decide,
    (C6_training_config_roundtrip wAllOk "/tmp" "/proj"
      (sampleConfig (.str "random_forest")) (by decide)).1⟩

theorem C1_witness :
    ("check_data" ∈ stepsToExecute (sampleConfig (.str "check_data"))) ∧
    ((go wFail "/tmp" "/proj" (sampleConfig (.str "check_data"))).2 =
        some (Err.runFailed (stagePath "/proj" "check_data")) ∧
      (∀ e ps, Event.run (stagePath "/proj" "segregate") e ps ∉
        (go wFail "/tmp" "/proj" (sampleConfig (.str "check_data"))).1) ∧
      (∀ e ps, Event.run (stagePath "/proj" "random_forest") e ps ∉
        (go wFail "/tmp" "/proj" (sampleConfig (.str "check_data"))).1) ∧
      (∀ e ps, Event.run (stagePath "/proj" "evaluate") e ps ∉
        (go wFail "/tmp" "/proj" (sampleConfig (.str "check_data"))).1)) :=
  ⟨by decide, C1_check_data_failure_aborts wFail "/tmp" "/proj"
    (sampleConfig (.str "check_data")) (by decide) rfl
    (fun h => absurd h (by decide)) (fun h => absurd h (by decide))⟩

theorem C7_witness :
    ("random_forest" ∈ stepsToExecute (sampleConfig (.seq ["random_forest"]))) ∧
    ((wAllOk.writeOk (stagePath "/tmp" "random_forest_config.yml")
        (yamlContent (sampleConfig (.seq ["random_forest"]))) = true →
      ∃ pre post, (go wAllOk "/tmp" "/proj" (sampleConfig (.seq ["random_forest"]))).1 =
        pre ++ Event.fileWrite (stagePath "/tmp" "random_forest_config.yml")
            (yamlContent (sampleConfig (.seq ["random_forest"]))) ::
          Event.run (stagePath "/proj" "random_forest") "main"
            (random_forestParams (sampleConfig (.seq ["random_forest"]))
              (stagePath "/tmp" "random_forest_config.yml")
              (Value.scalar "model_export").render) :: post) ∧
    ("model_config", stagePath "/tmp" "random_forest_config.yml") ∈
      random_forestParams (sampleConfig (.seq ["random_forest"]))
        (stagePath "/tmp" "random_forest_config.yml") (Value.scalar "model_export").render ∧
    (wAllOk.writeOk (stagePath "/tmp" "random_forest_config.yml")
        (yamlContent (sampleConfig (.seq ["random_forest"]))) = false →
      (∀ e ps, Event.run (stagePath "/proj" "random_forest") e ps ∉
        (go wAllOk "/tmp" "/proj" (sampleConfig (.seq ["random_forest"]))).1) ∧
      (go wAllOk "/tmp" "/proj" (sampleConfig (.seq ["random_forest"]))).2 =
        some (Err.writeFailed (stagePath "/tmp" "random_forest_config.yml")))) :=
  ⟨by decide, C7_model_config_written_before_run wAllOk "/tmp" "/proj"
    (sampleConfig (.seq ["random_forest"])) (.scalar "model_export")
    (by decide) rfl rfl⟩
